import Mathlib

/-!
Verification of the extract subsystem of the `probe` code-search tool.

The definitions below are shallow embeddings of the Rust functions in
`src/extract/processor.rs`, `src/extract/mod.rs`, `src/extract/formatter.rs`
and `src/language/go.rs`.  Strings of the source are Lean `String`s (or
`List Char` where character-level reasoning is needed), `usize` is `Nat`,
fallible results are `Except`, and a Rust panic is modelled as `none` of an
`Option` result type.
-/

namespace Probe

/-- Split a character list at each newline character: a text with `n`
newlines yields `n + 1` segments (the splitting Rust `str::lines()` is
built on). -/
def splitOnNl : List Char → List (List Char)
  | [] => [[]]
  | c :: rest =>
    match splitOnNl rest with
    | [] => [[]]
    | l :: ls =>
      if c = Char.ofNat 10 then [] :: l :: ls else (c :: l) :: ls

/-- Strip one trailing carriage return. -/
def stripCr (l : List Char) : List Char :=
  if l.getLast? = some (Char.ofNat 13) then l.dropLast else l

/-- Rust `str::lines()`: split on `\n`; every segment except the final
one was newline-terminated and has a trailing `\r` stripped; a final
empty segment (the text ended with `\n`) produces no line; a final
non-empty segment is emitted verbatim (Rust keeps a trailing `\r` there,
since it only strips `\r` out of `\r\n`).  The empty string has no
lines. -/
def rustLines (s : String) : List String :=
  if s.data = [] then []
  else
    let parts := splitOnNl s.data
    let initLines := (parts.dropLast.map stripCr).map List.asString
    match parts.getLast? with
    | some [] => initLines
    | some lst => initLines ++ [lst.asString]
    | none => initLines

/-- Rust `Ord::clamp`: `x.clamp(lo, hi)` panics when `lo > hi` (modelled as
`none`), otherwise moves `x` into `[lo, hi]`. -/
def rustClamp (x lo hi : Nat) : Option Nat :=
  if lo ≤ hi then some (Nat.max lo (Nat.min x hi)) else none

/-- Rust `iterator.min().unwrap_or(d)`. -/
def listMinD (l : List Nat) (d : Nat) : Nat :=
  match l with
  | [] => d
  | x :: xs => xs.foldl Nat.min x

/-- Rust `iterator.max().unwrap_or(d)`. -/
def listMaxD (l : List Nat) (d : Nat) : Nat :=
  match l with
  | [] => d
  | x :: xs => xs.foldl Nat.max x

/-- A parsed AST code block as returned by `parse_file_for_code_blocks`:
0-based start and end rows.  Only the two row fields are consumed by
`process_file_for_extraction`. -/
structure CodeBlock where
  start_row : Nat
  end_row : Nat
deriving DecidableEq

/-- The fields of `SearchResult` (src/models.rs) that the extract pipeline
reads or writes: file path, 1-based inclusive line range, node type label
and the extracted code text.  All the other fields of the Rust struct are
set to `None`/aux data by `process_file_for_extraction` and never inspected
by the deduplication or the claims below. -/
structure SR where
  file : String
  lines : Nat × Nat
  node_type : String
  code : String
deriving DecidableEq

/-- `lines[a..=b].join("\n")` on the in-bounds slices the processor takes
(every use below has `a ≤ b < lines.len()`, so the truncating `drop`/`take`
coincides with the panicking Rust slice). -/
def joinSlice (lines : List String) (a len : Nat) : String :=
  String.intercalate ("\n") ((lines.drop a).take len)

/-- The merged bounding block built by `process_file_for_extraction` when
`parse_file_for_code_blocks` returns a non-empty block list: from
`min(start_row)` to `max(end_row)`, the end clamped into the file and the
start clamped below the end, converted to 1-based lines. -/
def mergedBlock (path : String) (lines : List String) (blocks : List CodeBlock)
    (label : String) : SR :=
  let minStart := listMinD (blocks.map (fun b => b.start_row)) 0
  let maxEnd := listMaxD (blocks.map (fun b => b.end_row)) 0
  let maxEnd := Nat.min maxEnd (lines.length - 1)
  let minStart := Nat.min minStart maxEnd
  { file := path
    lines := (minStart + 1, maxEnd + 1)
    node_type := label
    code := joinSlice lines minStart (maxEnd + 1 - minStart) }

/-- The literal fallback of the range branch: lines `[s, e]` verbatim with
node type `range`. -/
def literalRange (path : String) (lines : List String) (s e : Nat) : SR :=
  { file := path
    lines := (s, e)
    node_type := "range"
    code := joinSlice lines (s - 1) (e - (s - 1)) }

/-- The context-window fallback of the single-line branch: lines
`[ln - ctx, ln + ctx]` clamped to the file, node type `context`. -/
def contextBlock (path : String) (lines : List String) (ln ctx : Nat) : SR :=
  let startCtx := if ln ≤ ctx then 1 else ln - ctx
  let endCtx := Nat.min (ln + ctx) lines.length
  { file := path
    lines := (startCtx, endCtx)
    node_type := "context"
    code := joinSlice lines (startCtx - 1) (endCtx - (startCtx - 1)) }

/-- The literal fallback of the specific-lines branch: from the smallest to
the largest requested line, widened by `ctx` context lines and clamped to
the file, node type `specific_lines`. -/
def specificFallback (path : String) (lines : List String) (lset : List Nat)
    (ctx : Nat) : SR :=
  let minLine := listMinD lset 1
  let maxLine := listMaxD lset lines.length
  let s := if minLine ≤ ctx then 1 else minLine - ctx
  let e := Nat.min (maxLine + ctx) lines.length
  { file := path
    lines := (s, e)
    node_type := "specific_lines"
    code := joinSlice lines (s - 1) (e - (s - 1)) }

/-- The whole-file result: the entire content with node type `file`. -/
def wholeFile (path content : String) (lines : List String) : SR :=
  { file := path
    lines := (1, lines.length)
    node_type := "file"
    code := content }

/-- Shallow embedding of `process_file_for_extraction`
(src/extract/processor.rs).  The file has already been read: `content` is
its text, so the existence/readability errors of the source cannot arise
here.  The call to `parse_file_for_code_blocks` (which lives outside the
supplied sources) is abstracted as the argument `parse`, a function from
the needed line set (passed as a list; the source uses a `HashSet`, whose
extensional content is what matters to the opaque parser) to its
`Result`; `allow_tests` is absorbed into `parse`.  The symbol branch,
a pure delegation to `find_symbol_in_file` (also outside the supplied
sources), is not modelled: every claim sets `symbol` to `None`.  A result
of `none` models a Rust panic, which `Ord::clamp` raises when its lower
bound exceeds its upper bound. -/
def process_file_for_extraction (path content : String)
    (start_line end_line : Option Nat) (context_lines : Nat)
    (specific_lines : Option (List Nat))
    (parse : List Nat → Except Unit (List CodeBlock)) : Option SR :=
  let lines := rustLines content
  match start_line, end_line with
  | some start, some end_ =>
    -- range branch: clamp both ends, gather AST blocks over the range
    match rustClamp start 1 lines.length with
    | none => none
    | some cs0 =>
      match rustClamp end_ cs0 lines.length with
      | none => none
      | some ce0 =>
        -- the two post-clamp fixups of the source (no-ops after the
        -- clamps; kept for faithfulness)
        let cs := if lines.length < cs0 then lines.length else cs0
        let ce := if ce0 < cs then cs else ce0
        let needed := List.range' cs (ce + 1 - cs) ++ specific_lines.getD []
        match parse needed with
        | Except.ok blocks =>
          if blocks.isEmpty then some (literalRange path lines cs ce)
          else some (mergedBlock path lines blocks ("merged_ast_range"))
        | Except.error _ => some (literalRange path lines cs ce)
  | some line_num, none =>
    -- single-line branch
    match rustClamp line_num 1 lines.length with
    | none => none
    | some ln =>
      let needed := ln :: specific_lines.getD []
      match parse needed with
      | Except.ok blocks =>
        if blocks.isEmpty then some (contextBlock path lines ln context_lines)
        else some (mergedBlock path lines blocks ("merged_ast_line"))
      | Except.error _ => some (contextBlock path lines ln context_lines)
  | none, _ =>
    match specific_lines with
    | some lset =>
      if lset.isEmpty then some (wholeFile path content lines)
      else
        -- drop requested line 0, clamp the rest to at most the line count
        let clamped := (lset.filter (fun l => l ≠ 0)).map
          (fun l => Nat.min l lines.length)
        match parse clamped with
        | Except.ok blocks =>
          if blocks.isEmpty then
            some (specificFallback path lines clamped context_lines)
          else some (mergedBlock path lines blocks ("merged_ast_specific_lines"))
        | Except.error _ =>
          some (specificFallback path lines clamped context_lines)
    | none => some (wholeFile path content lines)

/-- Size of a result's line range, as used by the sort comparator in
`handle_extract` (`a.lines.1 - a.lines.0` on `usize`; every extraction
result has `start ≤ end`, which the theorems below take as a hypothesis,
so the truncating `Nat` subtraction agrees with the source). -/
def rangeSize (r : SR) : Nat := r.lines.2 - r.lines.1

/-- The sort relation of `handle_extract` (src/extract/mod.rs): results are
ordered by file path, and inside a file by range size, largest first.
`extractLe a b` holds when `a` may come at or before `b`. -/
def extractLe (a b : SR) : Prop :=
  a.file < b.file ∨ (a.file = b.file ∧ rangeSize b ≤ rangeSize a)

instance : DecidableRel extractLe := fun a b => by
  unfold extractLe; infer_instance

instance : IsTotal SR extractLe where
  total a b := by
    rcases lt_trichotomy a.file b.file with h | h | h
    · exact Or.inl (Or.inl h)
    · rcases Nat.le_total (rangeSize b) (rangeSize a) with hs | hs
      · exact Or.inl (Or.inr ⟨h, hs⟩)
      · exact Or.inr (Or.inr ⟨h.symm, hs⟩)
    · exact Or.inr (Or.inl h)

instance : IsTrans SR extractLe where
  trans a b c hab hbc := by
    rcases hab with h1 | ⟨h1, s1⟩ <;> rcases hbc with h2 | ⟨h2, s2⟩
    · exact Or.inl (lt_trans h1 h2)
    · exact Or.inl (h2 ▸ h1)
    · exact Or.inl (h1 ▸ h2)
    · exact Or.inr ⟨h1.trans h2, s2.trans s1⟩

/-- `handle_extract`'s sort of the collected results: a stable sort by
`extractLe` (Rust `sort_by` is stable; so is insertion sort). -/
def sortResults (l : List SR) : List SR := List.insertionSort extractLe l

/-- Containment test used by the deduplication pass of `handle_extract`:
`covers a b` holds when `b`'s range is inside `a`'s range in the same
file (`start_j >= start_i && end_j <= end_i` in the source). -/
def covers (a b : SR) : Bool :=
  a.file == b.file && decide (a.lines.1 ≤ b.lines.1) &&
    decide (b.lines.2 ≤ a.lines.2)

/-- One step of the deduplication pass: a result is kept exactly when no
already-kept result covers it.

This is the functional reading of the imperative two-phase loop in
`handle_extract` (src/extract/mod.rs lines 685-747).  There, index `j` is
dropped iff some index `i < j` that itself survived marks it: either via
the `seen_exact` key `"{file}:{start}:{end}"` (equal keys coincide with
equal `(file, start, end)` triples, because the two final `:`-separated
fields of the key are canonical decimal numerals, making the encoding
injective; an equal triple is a special case of `covers`), or via the
nested-range check (exactly `covers`).  An index that survives up to its
own iteration is never unmarked later (the inner loop only marks `j > i`),
so "survived" is exactly membership in the kept-so-far accumulator. -/
def dedupStep (kept : List SR) (x : SR) : List SR :=
  if kept.any (fun r => covers r x) then kept else kept ++ [x]

/-- The deduplication pass over the sorted result list. -/
def dedupResults (l : List SR) : List SR := l.foldl dedupStep []

/-- Sort then deduplicate, as `handle_extract` does. -/
def dedupExtract (l : List SR) : List SR := dedupResults (sortResults l)

/-- The successful per-file extraction results, in input order. -/
def okResults (outcomes : List (Except String SR)) : List SR :=
  outcomes.filterMap (fun o => match o with
    | Except.ok r => some r
    | Except.error _ => none)

/-- The per-file error messages, in input order. -/
def errMessages (outcomes : List (Except String SR)) : List String :=
  outcomes.filterMap (fun o => match o with
    | Except.ok _ => none
    | Except.error e => some e)

/-- Shallow embedding of the result-collection tail of `handle_extract`
(src/extract/mod.rs).  `outcomes` are the `Result`s of
`process_file_for_extraction` on the requested files, in request order
(the source runs them on a Rayon pool and pushes into mutex-guarded
vectors; the claims below do not depend on the interleaving order).  An
`Ok` result is pushed onto the result list, an `Err` is formatted into the
error list and the file is skipped; the surviving results are sorted and
deduplicated.  The function itself always returns `Ok`, carrying what the
source hands to the formatter and the error summary. -/
def handle_extract (outcomes : List (Except String SR)) :
    Except String (List SR × List String) :=
  let collected := outcomes.foldl
    (fun (acc : List SR × List String) o =>
      match o with
      | Except.ok r => (acc.1 ++ [r], acc.2)
      | Except.error e => (acc.1, acc.2 ++ [e]))
    ([], [])
  Except.ok (dedupExtract collected.1, collected.2)

/-- Shallow embedding of `GoLanguage::is_acceptable_parent`
(src/language/go.rs): the `matches!` over the node kind. -/
def goIsAcceptableParent (kind : String) : Bool :=
  kind == "function_declaration" ||
  kind == "method_declaration" ||
  kind == "type_declaration" ||
  kind == "struct_type" ||
  kind == "interface_type" ||
  kind == "const_declaration" ||
  kind == "var_declaration" ||
  kind == "const_spec" ||
  kind == "var_spec" ||
  kind == "short_var_declaration" ||
  kind == "type_spec"

/-- A tree-sitter node as far as `GoLanguage::is_test_node` inspects it:
its kind, its source text (`utf8_text`, with the `unwrap_or("")` of the
source folded into the field) and its children. -/
inductive TSNode : Type where
  | node (kind : String) (text : String) (children : List TSNode) : TSNode

def TSNode.kind : TSNode → String
  | .node k _ _ => k

def TSNode.text : TSNode → String
  | .node _ t _ => t

def TSNode.children : TSNode → List TSNode
  | .node _ _ c => c

/-- Shallow embedding of `GoLanguage::is_test_node` (src/language/go.rs):
a `function_declaration` with an `identifier` child whose text starts with
`Test`. -/
def goIsTestNode (n : TSNode) : Bool :=
  if n.kind == "function_declaration" then
    n.children.any (fun c =>
      c.kind == "identifier" && c.text.startsWith ("Test"))
  else false

/-- One step of `group_symbols_by_type`: append `s` to the vector of its
`node_type` key, creating the entry when absent (`entry...or_insert` on the
`HashMap`; modelled as an association list, which the lookup below reads
back). -/
def insertGrouped (m : List (String × List SR)) (s : SR) :
    List (String × List SR) :=
  match m with
  | [] => [(s.node_type, [s])]
  | (k, v) :: rest =>
    if k = s.node_type then (k, v ++ [s]) :: rest
    else (k, v) :: insertGrouped rest s

/-- Shallow embedding of `group_symbols_by_type`
(src/extract/processor.rs): fold the symbols into the map. -/
def group_symbols_by_type (symbols : List SR) : List (String × List SR) :=
  symbols.foldl insertGrouped []

/-- Map lookup on the association-list model of the `HashMap`, with the
empty vector for an absent key. -/
def lookupGroup : List (String × List SR) → String → List SR
  | [], _ => []
  | (k, v) :: rest, key => if k = key then v else lookupGroup rest key

/-- The ampersand character. -/
def amp : Char := Char.ofNat 38

/-- The less-than character. -/
def ltc : Char := Char.ofNat 60

/-- The greater-than character. -/
def gtc : Char := Char.ofNat 62

/-- The double-quote character. -/
def quo : Char := Char.ofNat 34

/-- The single-quote (apostrophe) character. -/
def apo : Char := Char.ofNat 39

/-- Rust `str::replace` specialised to a single-character pattern, on the
character-list view of strings: each occurrence of `c` becomes `r`. -/
def replaceAll (s : List Char) (c : Char) (r : List Char) : List Char :=
  s.flatMap (fun x => if x = c then r else [x])

/-- Shallow embedding of `escape_xml` (src/extract/formatter.rs): the five
single-character replacements in source order, ampersand first. -/
def escape_xml (s : List Char) : List Char :=
  replaceAll (replaceAll (replaceAll (replaceAll (replaceAll s
    amp (("&amp;").toList))
    ltc (("&lt;").toList))
    gtc (("&gt;").toList))
    quo (("&quot;").toList))
    apo (("&apos;").toList)

/-- The per-character effect of the full replacement chain. -/
def escChar (x : Char) : List Char :=
  if x = amp then ("&amp;").toList
  else if x = ltc then ("&lt;").toList
  else if x = gtc then ("&gt;").toList
  else if x = quo then ("&quot;").toList
  else if x = apo then ("&apos;").toList
  else [x]

/-- The five escape sequences `escape_xml` may emit. -/
def xmlEscapes : List (List Char) :=
  [("&amp;").toList, ("&lt;").toList, ("&gt;").toList,
   ("&quot;").toList, ("&apos;").toList]

/-- Concatenation of the per-character pieces. -/
def escPieces : List Char → List Char
  | [] => []
  | x :: xs => escChar x ++ escPieces xs

/-! ### Supporting lemmas -/

theorem lookupGroup_insertGrouped (m : List (String × List SR)) (s : SR)
    (k : String) :
    lookupGroup (insertGrouped m s) k =
      if s.node_type = k then lookupGroup m k ++ [s] else lookupGroup m k := by
  induction m with
  | nil =>
    by_cases h : s.node_type = k <;> simp [insertGrouped, lookupGroup, h]
  | cons hd tl ih =>
    obtain ⟨k0, v0⟩ := hd
    by_cases h0 : k0 = s.node_type
    · by_cases hk : k0 = k
      · simp [insertGrouped, lookupGroup, h0, hk, h0.symm.trans hk]
      · have hs : s.node_type ≠ k := fun h => hk (h0.trans h)
        simp [insertGrouped, lookupGroup, h0, hk, hs]
    · by_cases hk : k0 = k
      · have hs : s.node_type ≠ k := fun h => h0 (hk.trans h.symm)
        have h0' : ¬k = s.node_type := hk ▸ h0
        simp [insertGrouped, lookupGroup, h0', hk, hs]
      · simp [insertGrouped, lookupGroup, h0, hk, ih]

theorem lookupGroup_foldl (xs : List SR) (m : List (String × List SR))
    (k : String) :
    lookupGroup (xs.foldl insertGrouped m) k =
      lookupGroup m k ++ xs.filter (fun s => s.node_type == k) := by
  induction xs generalizing m with
  | nil => simp
  | cons x xs ih =>
    rw [List.foldl_cons, ih, lookupGroup_insertGrouped]
    by_cases h : x.node_type = k <;>
      simp [h, List.filter_cons, List.append_assoc]

theorem replaceAll_append (a b : List Char) (c : Char) (r : List Char) :
    replaceAll (a ++ b) c r = replaceAll a c r ++ replaceAll b c r :=
  List.flatMap_append ..

theorem escape_xml_append (a b : List Char) :
    escape_xml (a ++ b) = escape_xml a ++ escape_xml b := by
  simp only [escape_xml, replaceAll_append]

theorem escape_xml_single (x : Char) : escape_xml [x] = escChar x := by
  by_cases h1 : x = amp
  · subst h1; rfl
  by_cases h2 : x = ltc
  · subst h2; rfl
  by_cases h3 : x = gtc
  · subst h3; rfl
  by_cases h4 : x = quo
  · subst h4; rfl
  by_cases h5 : x = apo
  · subst h5; rfl
  simp [escape_xml, replaceAll, escChar, h1, h2, h3, h4, h5]

theorem escape_xml_eq_escPieces (s : List Char) :
    escape_xml s = escPieces s := by
  induction s with
  | nil => rfl
  | cons x xs ih =>
    rw [show escPieces (x :: xs) = escChar x ++ escPieces xs from rfl, ← ih,
      show (x :: xs : List Char) = [x] ++ xs from rfl, escape_xml_append,
      escape_xml_single]

theorem escChar_no_banned (x c : Char) (hc : c ∈ escChar x) :
    c ≠ ltc ∧ c ≠ gtc ∧ c ≠ quo ∧ c ≠ apo := by
  unfold escChar at hc
  by_cases h1 : x = amp
  · rw [if_pos h1] at hc
    fin_cases hc <;> decide
  rw [if_neg h1] at hc
  by_cases h2 : x = ltc
  · rw [if_pos h2] at hc
    fin_cases hc <;> decide
  rw [if_neg h2] at hc
  by_cases h3 : x = gtc
  · rw [if_pos h3] at hc
    fin_cases hc <;> decide
  rw [if_neg h3] at hc
  by_cases h4 : x = quo
  · rw [if_pos h4] at hc
    fin_cases hc <;> decide
  rw [if_neg h4] at hc
  by_cases h5 : x = apo
  · rw [if_pos h5] at hc
    fin_cases hc <;> decide
  rw [if_neg h5] at hc
  rw [List.mem_singleton] at hc
  subst hc
  exact ⟨h2, h3, h4, h5⟩

theorem escPieces_no_banned (s : List Char) (c : Char)
    (hc : c ∈ escPieces s) :
    c ≠ ltc ∧ c ≠ gtc ∧ c ≠ quo ∧ c ≠ apo := by
  induction s with
  | nil => cases hc
  | cons x xs ih =>
    rw [show escPieces (x :: xs) = escChar x ++ escPieces xs from rfl,
      List.mem_append] at hc
    rcases hc with hc | hc
    · exact escChar_no_banned x c hc
    · exact ih hc

theorem amp_head_unique (t p q : List Char) (hnot : amp ∉ t)
    (h : amp :: t = p ++ amp :: q) : p = [] := by
  cases p with
  | nil => rfl
  | cons c p' =>
    rw [List.cons_append, List.cons_eq_cons] at h
    exfalso
    apply hnot
    rw [h.2]
    simp

theorem escChar_amp_split (x : Char) (p q : List Char)
    (h : escChar x = p ++ amp :: q) :
    p = [] ∧ escChar x ∈ xmlEscapes := by
  unfold escChar at *
  by_cases h1 : x = amp
  · rw [if_pos h1] at *
    refine ⟨amp_head_unique ['a', 'm', 'p', ';'] p q (by decide) ?_, by decide⟩
    rw [show ("&amp;").toList = amp :: ['a', 'm', 'p', ';'] from rfl] at h
    exact h
  rw [if_neg h1] at *
  by_cases h2 : x = ltc
  · rw [if_pos h2] at *
    refine ⟨amp_head_unique ['l', 't', ';'] p q (by decide) ?_, by decide⟩
    rw [show ("&lt;").toList = amp :: ['l', 't', ';'] from rfl] at h
    exact h
  rw [if_neg h2] at *
  by_cases h3 : x = gtc
  · rw [if_pos h3] at *
    refine ⟨amp_head_unique ['g', 't', ';'] p q (by decide) ?_, by decide⟩
    rw [show ("&gt;").toList = amp :: ['g', 't', ';'] from rfl] at h
    exact h
  rw [if_neg h3] at *
  by_cases h4 : x = quo
  · rw [if_pos h4] at *
    refine ⟨amp_head_unique ['q', 'u', 'o', 't', ';'] p q (by decide) ?_,
      by decide⟩
    rw [show ("&quot;").toList = amp :: ['q', 'u', 'o', 't', ';'] from rfl] at h
    exact h
  rw [if_neg h4] at *
  by_cases h5 : x = apo
  · rw [if_pos h5] at *
    refine ⟨amp_head_unique ['a', 'p', 'o', 's', ';'] p q (by decide) ?_,
      by decide⟩
    rw [show ("&apos;").toList = amp :: ['a', 'p', 'o', 's', ';'] from rfl] at h
    exact h
  rw [if_neg h5] at *
  exfalso
  cases p with
  | nil =>
    rw [List.nil_append, List.cons_eq_cons] at h
    exact h1 h.1
  | cons c p' =>
    rw [List.cons_append, List.cons_eq_cons] at h
    exact List.cons_ne_nil amp q (List.append_eq_nil.mp h.2.symm).2

theorem escPieces_amp_starts_escape (s pre suf : List Char)
    (h : escPieces s = pre ++ amp :: suf) :
    ∃ t ∈ xmlEscapes, ∃ rest, amp :: suf = t ++ rest := by
  induction s generalizing pre suf with
  | nil =>
    exfalso
    exact List.cons_ne_nil amp suf (List.append_eq_nil.mp h.symm).2
  | cons x xs ih =>
    rw [show escPieces (x :: xs) = escChar x ++ escPieces xs from rfl] at h
    rcases List.append_eq_append_iff.mp h with ⟨e, _, he2⟩ | ⟨e, he1, he2⟩
    · exact ih e suf he2
    · cases e with
      | nil =>
        rw [List.nil_append] at he2
        exact ih [] suf (by simpa using he2.symm)
      | cons hchar t =>
        rw [List.cons_append, List.cons_eq_cons] at he2
        obtain ⟨hh, hsuf⟩ := he2
        rw [← hh] at he1
        obtain ⟨hpre, hmem⟩ := escChar_amp_split x pre t he1
        refine ⟨escChar x, hmem, escPieces xs, ?_⟩
        rw [hpre, List.nil_append] at he1
        rw [hsuf, he1, List.cons_append]

/-- The 0-based end row of the merged bounding block: the largest block
end row, clamped into the file. -/
def mergedEnd (lines : List String) (bs : List CodeBlock) : Nat :=
  Nat.min (listMaxD (bs.map (fun b => b.end_row)) 0) (lines.length - 1)

/-- The 0-based start row of the merged bounding block: the smallest block
start row, clamped to at most the merged end row. -/
def mergedStart (lines : List String) (bs : List CodeBlock) : Nat :=
  Nat.min (listMinD (bs.map (fun b => b.start_row)) 0) (mergedEnd lines bs)

theorem mergedBlock_eq (path : String) (lines : List String)
    (bs : List CodeBlock) (label : String) :
    mergedBlock path lines bs label =
      { file := path
        lines := (mergedStart lines bs + 1, mergedEnd lines bs + 1)
        node_type := label
        code := joinSlice lines (mergedStart lines bs)
          (mergedEnd lines bs + 1 - mergedStart lines bs) } := rfl

theorem rustClamp_some (x lo hi : Nat) (h : lo ≤ hi) :
    rustClamp x lo hi = some (Nat.max lo (Nat.min x hi)) := by
  unfold rustClamp; rw [if_pos h]

theorem nat_min_succ (a b c : Nat) (h : b + 1 = c) :
    Nat.min a b + 1 = Nat.min (a + 1) c := by
  show min a b + 1 = min (a + 1) c
  rw [Nat.min_def, Nat.min_def]
  split_ifs <;> omega

theorem covers_self (x : SR) : covers x x = true := by
  simp [covers]

theorem covers_true_iff (a b : SR) :
    covers a b = true ↔
      a.file = b.file ∧ a.lines.1 ≤ b.lines.1 ∧ b.lines.2 ≤ a.lines.2 := by
  simp [covers, Bool.and_eq_true, beq_iff_eq, decide_eq_true_eq, and_assoc]

theorem subset_foldl_dedupStep (l acc : List SR) :
    acc ⊆ l.foldl dedupStep acc := by
  induction l generalizing acc with
  | nil => exact fun a ha => ha
  | cons x xs ih =>
    intro a ha
    rw [List.foldl_cons]
    apply ih (dedupStep acc x)
    unfold dedupStep
    split
    · exact ha
    · exact List.mem_append_left _ ha

theorem pairwise_foldl_dedupStep (l : List SR)
    (hlsorted : l.Pairwise extractLe)
    (hproper_l : ∀ x ∈ l, x.lines.1 ≤ x.lines.2)
    (acc : List SR)
    (haccP : acc.Pairwise
      (fun a b => covers a b = false ∧ covers b a = false))
    (hsorted : ∀ r ∈ acc, ∀ x ∈ l, extractLe r x)
    (hproper_acc : ∀ r ∈ acc, r.lines.1 ≤ r.lines.2) :
    (l.foldl dedupStep acc).Pairwise
      (fun a b => covers a b = false ∧ covers b a = false) := by
  induction l generalizing acc with
  | nil => exact haccP
  | cons x xs ih =>
    rw [List.foldl_cons]
    rcases List.pairwise_cons.mp hlsorted with ⟨hx_xs, hxs⟩
    have hproper_x : x.lines.1 ≤ x.lines.2 :=
      hproper_l x (List.mem_cons_self x xs)
    have hproper_xs : ∀ y ∈ xs, y.lines.1 ≤ y.lines.2 :=
      fun y hy => hproper_l y (List.mem_cons_of_mem x hy)
    by_cases hg : acc.any (fun r => covers r x) = true
    · have hstep : dedupStep acc x = acc := by
        unfold dedupStep; rw [if_pos hg]
      rw [hstep]
      exact ih hxs hproper_xs acc haccP
        (fun r hr y hy => hsorted r hr y (List.mem_cons_of_mem x hy))
        hproper_acc
    · have hstep : dedupStep acc x = acc ++ [x] := by
        unfold dedupStep; rw [if_neg hg]
      rw [hstep]
      have hnocover : ∀ r ∈ acc, covers r x = false := by
        intro r hr
        by_contra hc
        apply hg
        rw [List.any_eq_true]
        exact ⟨r, hr, by revert hc; cases covers r x <;> simp⟩
      apply ih hxs hproper_xs (acc ++ [x])
      · rw [List.pairwise_append]
        refine ⟨haccP, List.pairwise_singleton _ _, ?_⟩
        intro r hr y hy
        rw [List.mem_singleton] at hy
        subst hy
        refine ⟨hnocover r hr, ?_⟩
        by_contra hc
        have hc' : covers y r = true := by
          revert hc; cases covers y r <;> simp
        rw [covers_true_iff] at hc'
        obtain ⟨hfile, h1, h2⟩ := hc'
        have hle : extractLe r y := hsorted r hr y (List.mem_cons_self y xs)
        have hpr : r.lines.1 ≤ r.lines.2 := hproper_acc r hr
        rcases hle with hlt | ⟨heq, hsize⟩
        · rw [hfile] at hlt
          exact lt_irrefl _ hlt
        · unfold rangeSize at hsize
          have heq1 : r.lines.1 = y.lines.1 := by omega
          have heq2 : r.lines.2 = y.lines.2 := by omega
          have : covers r y = true := by
            rw [covers_true_iff]
            exact ⟨heq, by omega, by omega⟩
          rw [hnocover r hr] at this
          cases this
      · intro r hr y hy
        rw [List.mem_append] at hr
        rcases hr with hr | hr
        · exact hsorted r hr y (List.mem_cons_of_mem x hy)
        · rw [List.mem_singleton] at hr
          subst hr
          exact hx_xs y hy
      · intro r hr
        rw [List.mem_append] at hr
        rcases hr with hr | hr
        · exact hproper_acc r hr
        · rw [List.mem_singleton] at hr
          subst hr
          exact hproper_x

theorem covered_foldl_dedupStep (l : List SR) (x : SR) (hx : x ∈ l)
    (acc : List SR) :
    ∃ r ∈ l.foldl dedupStep acc, covers r x = true := by
  induction l generalizing acc with
  | nil => cases hx
  | cons y ys ih =>
    rw [List.foldl_cons]
    rcases List.mem_cons.mp hx with rfl | hx'
    · by_cases hg : acc.any (fun r => covers r x) = true
      · have hstep : dedupStep acc x = acc := by
          unfold dedupStep; rw [if_pos hg]
        rw [hstep]
        rw [List.any_eq_true] at hg
        obtain ⟨r, hr, hcr⟩ := hg
        exact ⟨r, subset_foldl_dedupStep ys acc hr, by simpa using hcr⟩
      · have hstep : dedupStep acc x = acc ++ [x] := by
          unfold dedupStep; rw [if_neg hg]
        rw [hstep]
        exact ⟨x, subset_foldl_dedupStep ys (acc ++ [x])
          (List.mem_append_right _ (List.mem_singleton_self x)),
          covers_self x⟩
    · exact ih hx' (dedupStep acc y)

theorem collect_foldl (outcomes : List (Except String SR))
    (acc : List SR × List String) :
    outcomes.foldl
        (fun (acc : List SR × List String) o =>
          match o with
          | Except.ok r => (acc.1 ++ [r], acc.2)
          | Except.error e => (acc.1, acc.2 ++ [e])) acc =
      (acc.1 ++ okResults outcomes, acc.2 ++ errMessages outcomes) := by
  induction outcomes generalizing acc with
  | nil => simp [okResults, errMessages]
  | cons o os ih =>
    cases o with
    | ok r =>
      rw [List.foldl_cons, ih]
      simp [okResults, errMessages, List.filterMap_cons]
    | error e =>
      rw [List.foldl_cons, ih]
      simp [okResults, errMessages, List.filterMap_cons]

/-! ### The claims -/

/-- Claim C1 (code bug): the source's own comment says line numbers are
clamped to valid ranges "instead of failing", and the claim extends this
to files with zero lines; but on a zero-line file `start.clamp(1, 0)`
panics in Rust because the lower bound exceeds the upper bound.  This
theorem evaluates the embedding at the failing input: an empty (readable)
file with requested range 5-10, and with requested single line 5; both
calls panic (`none`) instead of returning a clamped block. -/
theorem process_panics_on_zero_line_file :
    process_file_for_extraction ("f.go") ("") (some 5) (some 10) 0 none
      (fun _ => Except.ok []) = none ∧
    process_file_for_extraction ("f.go") ("") (some 5) none 0 none
      (fun _ => Except.ok []) = none := by
  exact ⟨rfl, rfl⟩

/-- Claim C6 (counterexample): `GoLanguage::is_acceptable_parent` also
accepts `const_spec` (as well as `var_spec` and `short_var_declaration`),
which is not in the claim's eight-kind list, so the claimed "exactly when"
equivalence fails at the node kind `const_spec`. -/
theorem go_acceptable_parent_counterexample :
    goIsAcceptableParent ("const_spec") = true ∧
      (("const_spec" : String) = "function_declaration" ∨
       ("const_spec" : String) = "method_declaration" ∨
       ("const_spec" : String) = "type_declaration" ∨
       ("const_spec" : String) = "struct_type" ∨
       ("const_spec" : String) = "interface_type" ∨
       ("const_spec" : String) = "const_declaration" ∨
       ("const_spec" : String) = "var_declaration" ∨
       ("const_spec" : String) = "type_spec") = False := by
  constructor
  · rfl
  · simp only [eq_iff_iff, iff_false]
    intro h
    rcases h with h | h | h | h | h | h | h | h <;> exact absurd h (by decide)

/-- Claim C6 (amended): `GoLanguage::is_acceptable_parent` returns true
exactly when the node kind is one of `function_declaration`,
`method_declaration`, `type_declaration`, `struct_type`, `interface_type`,
`const_declaration`, `var_declaration`, `const_spec`, `var_spec`,
`short_var_declaration`, `type_spec`, and false for every other kind. -/
theorem go_acceptable_parent_iff (k : String) :
    goIsAcceptableParent k = true ↔
      (k = "function_declaration" ∨ k = "method_declaration" ∨
       k = "type_declaration" ∨ k = "struct_type" ∨
       k = "interface_type" ∨ k = "const_declaration" ∨
       k = "var_declaration" ∨ k = "const_spec" ∨
       k = "var_spec" ∨ k = "short_var_declaration" ∨
       k = "type_spec") := by
  simp [goIsAcceptableParent, Bool.or_eq_true, beq_iff_eq, or_assoc]

/-- Claim C7: `GoLanguage::is_test_node` returns true exactly when the
node is a `function_declaration` with an `identifier` child whose text
starts with `Test`, and false for every other node. -/
theorem go_is_test_node_iff (n : TSNode) :
    goIsTestNode n = true ↔
      (n.kind = "function_declaration" ∧
        ∃ c ∈ n.children, c.kind = "identifier" ∧
          c.text.startsWith ("Test") = true) := by
  unfold goIsTestNode
  by_cases h : n.kind = "function_declaration" <;>
    simp [h, List.any_eq_true, Bool.and_eq_true, beq_iff_eq, and_assoc]

/-- Claim C8: with no start line, no end line, (no symbol,) and no
specific-lines set, `process_file_for_extraction` returns exactly one
result of node type `file` whose code is the entire file content and whose
lines are `(1, n)` for `n` the content's line count; in particular an
empty file yields the range `(1, 0)`. -/
theorem process_whole_file (path content : String) (ctx : Nat)
    (pr : List Nat → Except Unit (List CodeBlock)) :
    process_file_for_extraction path content none none ctx none pr =
      some { file := path
             lines := (1, (rustLines content).length)
             node_type := "file"
             code := content } ∧
    process_file_for_extraction path ("") none none ctx none pr =
      some { file := path
             lines := (1, 0)
             node_type := "file"
             code := "" } := by
  exact ⟨rfl, rfl⟩

/-- Claim C9: `group_symbols_by_type` files every symbol under the key
equal to its `node_type` and nowhere else, keeping the input order inside
each group: for every key, the group's content is exactly the input
subsequence of symbols with that node type. -/
theorem group_symbols_by_type_complete (xs : List SR) (k : String) :
    lookupGroup (group_symbols_by_type xs) k =
      xs.filter (fun s => s.node_type == k) := by
  have h := lookupGroup_foldl xs [] k
  simpa [group_symbols_by_type, lookupGroup] using h

/-- Claim C3: in range mode on a file with at least one line, when the
AST parse yields a non-empty block list `bs`, the processor returns
exactly one block of node type `merged_ast_range` whose end line is the
largest block end line clamped to the file and whose start line is the
smallest block start line clamped below that end, with the corresponding
merged text; when the parse yields no blocks (error or empty), it returns
the single literal block of the clamped requested lines `[s, e]`. -/
theorem process_range_merge_and_fallback (path content : String)
    (s e ctx : Nat) (specific : Option (List Nat))
    (hlen : rustLines content ≠ []) :
    (∀ bs : List CodeBlock, bs ≠ [] →
      process_file_for_extraction path content (some s) (some e) ctx specific
          (fun _ => Except.ok bs) =
        some { file := path
               lines := (mergedStart (rustLines content) bs + 1,
                 mergedEnd (rustLines content) bs + 1)
               node_type := "merged_ast_range"
               code := joinSlice (rustLines content)
                 (mergedStart (rustLines content) bs)
                 (mergedEnd (rustLines content) bs + 1 -
                   mergedStart (rustLines content) bs) } ∧
      mergedEnd (rustLines content) bs + 1 =
        Nat.min (listMaxD (bs.map (fun b => b.end_row)) 0 + 1)
          (rustLines content).length ∧
      mergedStart (rustLines content) bs + 1 =
        Nat.min (listMinD (bs.map (fun b => b.start_row)) 0 + 1)
          (mergedEnd (rustLines content) bs + 1)) ∧
    (∀ pr : List Nat → Except Unit (List CodeBlock),
      (∀ ns, pr ns = Except.error () ∨ pr ns = Except.ok []) →
      process_file_for_extraction path content (some s) (some e) ctx specific
          pr =
        some { file := path
               lines := (Nat.max 1 (Nat.min s (rustLines content).length),
                 Nat.max (Nat.max 1 (Nat.min s (rustLines content).length))
                   (Nat.min e (rustLines content).length))
               node_type := "range"
               code := joinSlice (rustLines content)
                 (Nat.max 1 (Nat.min s (rustLines content).length) - 1)
                 (Nat.max (Nat.max 1 (Nat.min s (rustLines content).length))
                     (Nat.min e (rustLines content).length) -
                   (Nat.max 1 (Nat.min s (rustLines content).length) - 1)) }) := by
  have hlen1 : 1 ≤ (rustLines content).length := by
    have := List.length_pos.mpr hlen; omega
  have hcsle :
      Nat.max 1 (Nat.min s (rustLines content).length) ≤
        (rustLines content).length :=
    Nat.max_le.mpr ⟨hlen1, Nat.min_le_right s _⟩
  have hc1 := rustClamp_some s 1 (rustLines content).length hlen1
  have hc2 := rustClamp_some e (Nat.max 1 (Nat.min s (rustLines content).length))
    (rustLines content).length hcsle
  have hnotlt1 :
      ¬((rustLines content).length <
        Nat.max 1 (Nat.min s (rustLines content).length)) :=
    Nat.not_lt.mpr hcsle
  have hnotlt2 :
      ¬(Nat.max (Nat.max 1 (Nat.min s (rustLines content).length))
          (Nat.min e (rustLines content).length) <
        Nat.max 1 (Nat.min s (rustLines content).length)) :=
    Nat.not_lt.mpr (Nat.le_max_left _ _)
  constructor
  · intro bs hbs
    have hA : mergedEnd (rustLines content) bs + 1 =
        Nat.min (listMaxD (bs.map (fun b => b.end_row)) 0 + 1)
          (rustLines content).length := by
      unfold mergedEnd
      exact nat_min_succ _ _ _ (by omega)
    have hB : mergedStart (rustLines content) bs + 1 =
        Nat.min (listMinD (bs.map (fun b => b.start_row)) 0 + 1)
          (mergedEnd (rustLines content) bs + 1) := by
      unfold mergedStart
      exact nat_min_succ _ _ _ rfl
    refine ⟨?_, hA, hB⟩
    unfold process_file_for_extraction
    simp only [hc1, hc2]
    rw [if_neg hnotlt1, if_neg hnotlt2]
    rw [show bs.isEmpty = false from List.isEmpty_eq_false.mpr hbs]
    exact congrArg some (mergedBlock_eq path (rustLines content) bs _)
  · intro pr hpr
    unfold process_file_for_extraction
    simp only [hc1, hc2]
    rw [if_neg hnotlt1, if_neg hnotlt2]
    rcases hpr (List.range' (Nat.max 1 (Nat.min s (rustLines content).length))
        (Nat.max (Nat.max 1 (Nat.min s (rustLines content).length))
            (Nat.min e (rustLines content).length) + 1 -
          Nat.max 1 (Nat.min s (rustLines content).length)) ++
        specific.getD []) with hp | hp
    · rw [hp]
      rfl
    · rw [hp]
      rfl

/-- Witness for claim C3 on the file `a\nb\nc\nd` with requested range
2-3: an AST parse returning the single block of rows 0-2 merges to lines
1-3, and a failing parse falls back to the literal lines 2-3. -/
theorem process_range_witness :
    process_file_for_extraction ("f.rs") ("a\nb\nc\nd") (some 2) (some 3) 0
        none (fun _ => Except.ok [⟨0, 2⟩]) =
      some { file := "f.rs", lines := (1, 3),
             node_type := "merged_ast_range", code := "a\nb\nc" } ∧
    process_file_for_extraction ("f.rs") ("a\nb\nc\nd") (some 2) (some 3) 0
        none (fun _ => Except.error ()) =
      some { file := "f.rs", lines := (2, 3), node_type := "range",
             code := "b\nc" } := by
  have h := process_range_merge_and_fallback ("f.rs") ("a\nb\nc\nd") 2 3 0
    none (by decide)
  constructor
  · have h1 := (h.1 [⟨0, 2⟩] (by decide)).1
    rw [h1]; rfl
  · have h2 := h.2 (fun _ => Except.error ()) (fun _ => Or.inl rfl)
    rw [h2]; rfl

/-- Claim C2: after the sort (by file, then range size descending) and
the deduplication pass of `handle_extract`, the retained results are
pairwise non-nested — in particular no two share an identical
`(file, start, end)` triple — and every candidate is covered by some
retained result of the same file, so whenever one candidate is nested in
another the outer range is the one kept. -/
theorem dedup_no_nested_outer_kept (l : List SR)
    (hproper : ∀ r ∈ l, r.lines.1 ≤ r.lines.2) :
    (dedupExtract l).Pairwise
      (fun a b => covers a b = false ∧ covers b a = false) ∧
    (dedupExtract l).Pairwise
      (fun a b => ¬(a.file = b.file ∧ a.lines = b.lines)) ∧
    (∀ x ∈ l, ∃ r ∈ dedupExtract l, covers r x = true) := by
  have hperm := List.perm_insertionSort extractLe l
  have hsorted : (sortResults l).Pairwise extractLe :=
    List.sorted_insertionSort extractLe l
  have hproper' : ∀ x ∈ sortResults l, x.lines.1 ≤ x.lines.2 := by
    intro x hx
    exact hproper x (hperm.mem_iff.mp hx)
  have hP : (dedupExtract l).Pairwise
      (fun a b => covers a b = false ∧ covers b a = false) :=
    pairwise_foldl_dedupStep (sortResults l) hsorted hproper' []
      List.Pairwise.nil (fun r hr => (List.not_mem_nil r hr).elim)
      (fun r hr => (List.not_mem_nil r hr).elim)
  refine ⟨hP, ?_, ?_⟩
  · refine hP.imp ?_
    intro a b hab hident
    have hc : covers a b = true := by
      rw [covers_true_iff]
      exact ⟨hident.1, le_of_eq (congrArg Prod.fst hident.2),
        le_of_eq (congrArg Prod.snd hident.2).symm⟩
    rw [hab.1] at hc
    cases hc
  · intro x hx
    exact covered_foldl_dedupStep (sortResults l) x (hperm.mem_iff.mpr hx) []

/-- Witness for claim C2: two results of the same file, the range 2-3
nested inside 1-5; the deduplicated set is pairwise non-nested and both
candidates are covered by a retained result. -/
theorem dedup_no_nested_outer_kept_witness :
    (dedupExtract [⟨"a.rs", (2, 3), "fn", "x"⟩,
        ⟨"a.rs", (1, 5), "fn", "y"⟩]).Pairwise
      (fun a b => covers a b = false ∧ covers b a = false) ∧
    (dedupExtract [⟨"a.rs", (2, 3), "fn", "x"⟩,
        ⟨"a.rs", (1, 5), "fn", "y"⟩]).Pairwise
      (fun a b => ¬(a.file = b.file ∧ a.lines = b.lines)) ∧
    (∀ x ∈ [(⟨"a.rs", (2, 3), "fn", "x"⟩ : SR),
        ⟨"a.rs", (1, 5), "fn", "y"⟩],
      ∃ r ∈ dedupExtract [⟨"a.rs", (2, 3), "fn", "x"⟩,
        ⟨"a.rs", (1, 5), "fn", "y"⟩], covers r x = true) :=
  dedup_no_nested_outer_kept
    [⟨"a.rs", (2, 3), "fn", "x"⟩, ⟨"a.rs", (1, 5), "fn", "y"⟩] (by decide)

/-- Claim C4: when single-line extraction at a valid line `L` finds no
AST block (the parse errors or returns no blocks), the returned block is
the literal context window `[L - ctx, L + ctx]` clamped to
`[1, line_count]`, with node type `context`; its start is `1` whenever
`L ≤ ctx` and its end never exceeds the file's line count. -/
theorem process_context_fallback (path content : String) (L ctx : Nat)
    (specific : Option (List Nat))
    (pr : List Nat → Except Unit (List CodeBlock))
    (hL1 : 1 ≤ L) (hL : L ≤ (rustLines content).length)
    (hpr : ∀ ns, pr ns = Except.error () ∨ pr ns = Except.ok []) :
    process_file_for_extraction path content (some L) none ctx specific pr =
      some { file := path
             lines := (Nat.max 1 (L - ctx),
               Nat.min (L + ctx) (rustLines content).length)
             node_type := "context"
             code := joinSlice (rustLines content) (Nat.max 1 (L - ctx) - 1)
               (Nat.min (L + ctx) (rustLines content).length -
                 (Nat.max 1 (L - ctx) - 1)) } ∧
    (L ≤ ctx → Nat.max 1 (L - ctx) = 1) ∧
    Nat.min (L + ctx) (rustLines content).length ≤
      (rustLines content).length := by
  have hlen1 : 1 ≤ (rustLines content).length := hL1.trans hL
  have hcl : rustClamp L 1 (rustLines content).length = some L := by
    rw [rustClamp_some _ _ _ hlen1]
    congr 1
    show max 1 (min L (rustLines content).length) = L
    rw [Nat.min_def, Nat.max_def]
    split_ifs
    omega
  have hstart : (if L ≤ ctx then 1 else L - ctx) = Nat.max 1 (L - ctx) := by
    show _ = max 1 (L - ctx)
    rw [Nat.max_def]
    split_ifs <;> omega
  refine ⟨?_, ?_, Nat.min_le_right _ _⟩
  · unfold process_file_for_extraction
    simp only [hcl]
    have hctx : contextBlock path (rustLines content) L ctx =
        { file := path
          lines := (Nat.max 1 (L - ctx),
            Nat.min (L + ctx) (rustLines content).length)
          node_type := "context"
          code := joinSlice (rustLines content) (Nat.max 1 (L - ctx) - 1)
            (Nat.min (L + ctx) (rustLines content).length -
              (Nat.max 1 (L - ctx) - 1)) } := by
      simp only [contextBlock, hstart]
    rcases hpr (L :: specific.getD []) with hp | hp
    · rw [hp, hctx]
    · rw [hp]
      exact congrArg some hctx
  · intro h
    show max 1 (L - ctx) = 1
    rw [Nat.max_def]
    split_ifs <;> omega

/-- Witness for claim C4: on the five-line file `a\nb\nc\nd\ne`, line 2
with three context lines and a parse that finds no blocks yields the
clamped window 1-5, node type `context`. -/
theorem process_context_witness :
    process_file_for_extraction ("f.rs") ("a\nb\nc\nd\ne") (some 2) none 3
        none (fun _ => Except.ok []) =
      some { file := "f.rs", lines := (1, 5), node_type := "context",
             code := "a\nb\nc\nd\ne" } := by
  have h := process_context_fallback ("f.rs") ("a\nb\nc\nd\ne") 2 3 none
    (fun _ => Except.ok []) (by decide) (by decide) (fun _ => Or.inr rfl)
  rw [h.1]
  rfl

/-- Claim C5: a failing file never aborts `handle_extract`: for every mix
of per-file successes and failures, the function returns `Ok`, its error
list is exactly the failing files' messages in order, every failing file
is absent from the results, and the successful results are still sorted
and deduplicated. -/
theorem handle_extract_never_aborts (outcomes : List (Except String SR)) :
    handle_extract outcomes =
      Except.ok (dedupExtract (okResults outcomes), errMessages outcomes) := by
  unfold handle_extract
  rw [collect_foldl]
  simp

/-- Claim C10: for every input, the output of `escape_xml` contains no
literal `<`, `>`, `"` or `'` character, and every `&` in the output is the
first character of one of the five sequences `&amp;`, `&lt;`, `&gt;`,
`&quot;`, `&apos;` (so the replacements themselves never produce text that
would need further escaping). -/
theorem escape_xml_sound (s : List Char) :
    (∀ c ∈ escape_xml s, c ≠ ltc ∧ c ≠ gtc ∧ c ≠ quo ∧ c ≠ apo) ∧
    (∀ pre suf, escape_xml s = pre ++ amp :: suf →
      ∃ t ∈ xmlEscapes, ∃ rest, amp :: suf = t ++ rest) := by
  constructor
  · intro c hc
    rw [escape_xml_eq_escPieces] at hc
    exact escPieces_no_banned s c hc
  · intro pre suf h
    rw [escape_xml_eq_escPieces] at h
    exact escPieces_amp_starts_escape s pre suf h

/-- Witness for claim C10 at the concrete input `a<b&`, whose escaped form
is `a&lt;b&amp;`: the inner hypothesis of the second conjunct is
discharged at the `&` before `amp;`. -/
theorem escape_xml_sound_witness :
    (∀ c ∈ escape_xml (("a<b&").toList),
      c ≠ ltc ∧ c ≠ gtc ∧ c ≠ quo ∧ c ≠ apo) ∧
    (∃ t ∈ xmlEscapes, ∃ rest, amp :: ("amp;").toList = t ++ rest) :=
  ⟨(escape_xml_sound (("a<b&").toList)).1,
   (escape_xml_sound (("a<b&").toList)).2 (("a&lt;b").toList)
     (("amp;").toList) (by decide)⟩

end Probe
